import Mathlib

/-!
Verification of the AVL-tree map implemented in `src/AVLTree.h` / `src/AVLTree.cpp`.

The C++ class `AVLTree` stores key/value pairs in an AVL tree whose nodes
(`AVLNode`) carry a key (`KeyType = std::string`), a value
(`ValueType = size_t`), a cached height (`size_t`, leaf = 1) and two child
pointers.  We embed the heap structure as an inductive type: a null
`AVLNode*` is `Tree.nil`, a non-null node is `Tree.node key value height
left right`.  `std::string` is modelled as its character sequence
`List Char`; `std::string::operator<` is byte-wise lexicographic comparison,
which is exactly the lexicographic order on `List Char`.  `size_t` heights,
values and sizes are modelled as `Nat`; `getBalance` casts the two heights
to `int` before subtracting, modelled as subtraction in `Int`.
-/

namespace AVLTreeCpp

/-- `using KeyType = std::string;` — a string modelled as its character list,
ordered lexicographically exactly like `std::string::operator<`. -/
abbrev KeyType := List Char

/-- `using ValueType = size_t;` -/
abbrev ValueType := Nat

/-- Helper to write string-literal keys. -/
def str (s : String) : KeyType := s.toList

/-- An `AVLNode*`: either `nullptr` or a node with key, value, cached height
and the two child subtrees. -/
inductive Tree where
  | nil : Tree
  | node (key : KeyType) (value : ValueType) (height : Nat)
         (left : Tree) (right : Tree) : Tree
deriving DecidableEq, Repr

namespace Tree

/-- The stored height of the node a pointer points to, with the convention
used throughout the C++ code: `node ? node->height : 0`. -/
def ht : Tree → Nat
  | nil => 0
  | node _ _ h _ _ => h

/-- `node == nullptr` -/
def isNil : Tree → Bool
  | nil => true
  | node _ _ _ _ _ => false

/-- `AVLNode::numChildren`: `if (left) ++count; if (right) ++count;`. -/
def numChildren : Tree → Nat
  | nil => 0
  | node _ _ _ l r => (if l.isNil then 0 else 1) + (if r.isNil then 0 else 1)

/-- `AVLNode::getBalance`:
`static_cast<int>(leftHeight) - static_cast<int>(rightHeight)` where a null
child counts as height 0.  (On `nil` it is never invoked by the code; we
return 0.) -/
def bal : Tree → Int
  | nil => 0
  | node _ _ _ l r => (l.ht : Int) - (r.ht : Int)

/-- `AVLNode::updateHeight`: `height = 1 + std::max(leftHeight, rightHeight)`
with null children counting as 0.  (Only ever invoked on non-null nodes;
identity on `nil`.) -/
def updateHeight : Tree → Tree
  | nil => nil
  | node k v _ l r => node k v (1 + max l.ht r.ht) l r

/-- The key of a non-null node; the `[]` default is never used — every call
site in the code dereferences a pointer it has checked to be non-null. -/
def keyD : Tree → KeyType
  | nil => []
  | node k _ _ _ _ => k

/-- The value of a non-null node (default 0 never used, as for `keyD`). -/
def valD : Tree → ValueType
  | nil => 0
  | node _ v _ _ _ => v

end Tree

open Tree

/-- `AVLTree::rotateLeft`: the right child becomes the root of the subtree;
`node->right = newRoot->left; newRoot->left = node;` then
`node->updateHeight(); newRoot->updateHeight();` in that order.
(With a null right child the C++ code would dereference `nullptr`; the code
only calls it when the subtree is right-heavy, so that case is unreachable —
modelled as the identity.) -/
def rotateLeft : Tree → Tree
  | node k v h l (node rk rv rh rl rr) =>
    let n := updateHeight (node k v h l rl)
    updateHeight (node rk rv rh n rr)
  | t => t

/-- `AVLTree::rotateRight`: mirror image of `rotateLeft`. -/
def rotateRight : Tree → Tree
  | node k v h (node lk lv lh ll lr) r =>
    let n := updateHeight (node k v h lr r)
    updateHeight (node lk lv lh ll n)
  | t => t

/-- `AVLTree::balanceNode`: if the balance factor exceeds 1, left-rotate the
left child when it is right-heavy (`getBalance() < 0`) and then right-rotate
the node; mirrored when the balance factor is below -1; otherwise do
nothing. -/
def balanceNode (t : Tree) : Tree :=
  match t with
  | nil => nil
  | node k v h l r =>
    let balance := (node k v h l r).bal
    if balance > 1 then
      -- `if (node->left && node->left->getBalance() < 0) rotateLeft(node->left);`
      let l' := if l.isNil = false ∧ l.bal < 0 then rotateLeft l else l
      rotateRight (node k v h l' r)
    else if balance < -1 then
      -- `if (node->right && node->right->getBalance() > 0) rotateRight(node->right);`
      let r' := if r.isNil = false ∧ r.bal > 0 then rotateRight r else r
      rotateLeft (node k v h l r')
    else node k v h l r

/-- The recursive `AVLTree::insert(AVLNode*& node, key, value)`.  Returns the
C++ return value together with the subtree the reference `node` points to
afterwards.  A new leaf is created with height 1 (the `AVLNode` constructor);
on the way back up a successful insert runs `updateHeight` then
`balanceNode`; a duplicate key returns `false` with no change. -/
def insertAux : Tree → KeyType → ValueType → Bool × Tree
  | nil, key, value => (true, node key value 1 nil nil)
  | node k v h l r, key, value =>
    if key < k then
      let q := insertAux l key value
      if q.1 then (true, balanceNode (updateHeight (node k v h q.2 r)))
      else (false, node k v h q.2 r)
    else if key > k then
      let q := insertAux r key value
      if q.1 then (true, balanceNode (updateHeight (node k v h l q.2)))
      else (false, node k v h l q.2)
    else
      (false, node k v h l r)

/-- `AVLTree::findMin`: follow `left` pointers to the left-most node of a
subtree (`nullptr` for an empty subtree). -/
def findMin : Tree → Tree
  | nil => nil
  | node k v h l r =>
    match l with
    | nil => node k v h l r
    | node _ _ _ _ _ => findMin l

/-- The `if (node) { node->updateHeight(); balanceNode(node); }` step that
`AVLTree::remove` performs after the recursive call returns. -/
def rebalanceTop : Tree → Tree
  | nil => nil
  | node k v h l r => balanceNode (updateHeight (node k v h l r))

/-- The recursive `AVLTree::remove(AVLNode*& node, key)` with
`AVLTree::removeNode` inlined at the `node->key == key` case: a leaf is
deleted (`node = nullptr`), a one-child node is replaced by its child, and a
two-child node receives the key/value of its in-order successor
(`findMin(node->right)`) after which the successor's key is removed from the
right subtree by a recursive `remove`.  In every case the outer `remove`
then runs `updateHeight`/`balanceNode` on whatever node the slot now holds
(`rebalanceTop`). -/
def removeAux : Tree → KeyType → Bool × Tree
  | nil, _ => (false, nil)
  | node k v h l r, key =>
    let p : Bool × Tree :=
      if key < k then
        let q := removeAux l key
        (q.1, node k v h q.2 r)
      else if key > k then
        let q := removeAux r key
        (q.1, node k v h l q.2)
      else
        match l, r with
        | nil, nil => (true, nil)
        | nil, node rk rv rh rl rr => (true, node rk rv rh rl rr)
        | node lk lv lh ll lr, nil => (true, node lk lv lh ll lr)
        | node _ _ _ _ _, node _ _ _ _ _ =>
          let succ := findMin r
          let q := removeAux r succ.keyD
          (q.1, node succ.keyD succ.valD h l q.2)
    (p.1, rebalanceTop p.2)

/-- `AVLTree::contains(const AVLNode*, key)`: pure descent by comparison. -/
def containsAux : Tree → KeyType → Bool
  | nil, _ => false
  | node k _ _ l r, key =>
    if key < k then containsAux l key
    else if key > k then containsAux r key
    else true

/-- `AVLTree::getNode`: the pointer to the node holding `key`
(`nullptr` if absent). -/
def getNode : Tree → KeyType → Tree
  | nil, _ => nil
  | node k v h l r, key =>
    if key < k then getNode l key
    else if key > k then getNode r key
    else node k v h l r

/-- `AVLTree::get`: `found ? optional(found->value) : nullopt`. -/
def getVal (t : Tree) (key : KeyType) : Option ValueType :=
  match getNode t key with
  | nil => none
  | node _ v _ _ _ => some v

/-- The recursive `AVLTree::findRange` helper: prune left unless
`node->key > lowKey`, push the value when `lowKey <= node->key <= highKey`,
prune right unless `node->key < highKey`; `result` is the accumulator
vector. -/
def findRangeAux : Tree → KeyType → KeyType → List ValueType → List ValueType
  | nil, _, _, result => result
  | node k v _ l r, lowKey, highKey, result =>
    let result := if k > lowKey then findRangeAux l lowKey highKey result else result
    let result := if k ≥ lowKey ∧ k ≤ highKey then result ++ [v] else result
    let result := if k < highKey then findRangeAux r lowKey highKey result else result
    result

/-- The recursive `AVLTree::getKeys` helper: in-order traversal pushing each
key into the accumulator vector. -/
def getKeysAux : Tree → List KeyType → List KeyType
  | nil, result => result
  | node k _ _ l r, result => getKeysAux r (getKeysAux l result ++ [k])

/-- `AVLTree::copyTree`: structurally copy a subtree, duplicating key,
value and the stored height. -/
def copyTree : Tree → Tree
  | nil => nil
  | node k v h l r => node k v h (copyTree l) (copyTree r)

/-- The `AVLTree` object itself: the root pointer and the `treeSize`
counter. -/
structure AVLTree where
  root : Tree
  treeSize : Nat
deriving DecidableEq, Repr

namespace AVLTree

/-- The default constructor: `root(nullptr), treeSize(0)`. -/
def empty : AVLTree := ⟨Tree.nil, 0⟩

/-- Public `AVLTree::insert`: run the recursive insert from the root and
increment `treeSize` iff it reports success; the Bool is the return value. -/
def insert (t : AVLTree) (key : KeyType) (value : ValueType) : Bool × AVLTree :=
  let q := insertAux t.root key value
  (q.1, ⟨q.2, if q.1 then t.treeSize + 1 else t.treeSize⟩)

/-- Public `AVLTree::remove`: run the recursive remove from the root and
decrement `treeSize` iff it reports success. -/
def remove (t : AVLTree) (key : KeyType) : Bool × AVLTree :=
  let q := removeAux t.root key
  (q.1, ⟨q.2, if q.1 then t.treeSize - 1 else t.treeSize⟩)

/-- Public `AVLTree::contains`. -/
def contains (t : AVLTree) (key : KeyType) : Bool := containsAux t.root key

/-- Public `AVLTree::get`. -/
def get (t : AVLTree) (key : KeyType) : Option ValueType := getVal t.root key

/-- Public `AVLTree::findRange`: starts from an empty result vector. -/
def findRange (t : AVLTree) (lowKey highKey : KeyType) : List ValueType :=
  findRangeAux t.root lowKey highKey []

/-- Public `AVLTree::keys`: starts from an empty result vector. -/
def keys (t : AVLTree) : List KeyType := getKeysAux t.root []

/-- Public `AVLTree::size`: returns the maintained counter. -/
def size (t : AVLTree) : Nat := t.treeSize

/-- Public `AVLTree::getHeight`: `root ? root->height : 0`. -/
def getHeight (t : AVLTree) : Nat := t.root.ht

/-- `AVLTree::operator=`: with the self-assignment guard `this != &other`
nothing happens when the two objects are the same (`isSelf = true`);
otherwise the current tree is cleared and `other` is deep-copied
(`copyTree`) and its size taken over. -/
def assign (self other : AVLTree) (isSelf : Bool) : AVLTree :=
  if isSelf then self else ⟨copyTree other.root, other.treeSize⟩

end AVLTree

/-- The key of the root node, if any (`tree.root->key`). -/
def rootKeyOpt : Tree → Option KeyType
  | Tree.nil => none
  | Tree.node k _ _ _ _ => some k

/-! ### Specification-level functions used only in statements and proofs -/

/-- The in-order key sequence of a subtree. -/
def inorder : Tree → List KeyType
  | Tree.nil => []
  | Tree.node k _ _ l r => inorder l ++ k :: inorder r

/-- The number of nodes reachable from a pointer. -/
def numNodes : Tree → Nat
  | Tree.nil => 0
  | Tree.node _ _ _ l r => numNodes l + numNodes r + 1

/-- Every reachable node's stored height is `1 + max` of its children's
stored heights (null child = 0): "height correctness". -/
def HtOk : Tree → Prop
  | Tree.nil => True
  | Tree.node _ _ h l r => h = 1 + max l.ht r.ht ∧ HtOk l ∧ HtOk r

/-- Every reachable node's balance factor (from the stored heights) lies in
{-1, 0, +1}: the AVL balance invariant. -/
def Balanced : Tree → Prop
  | Tree.nil => True
  | Tree.node _ _ _ l r =>
      -1 ≤ (l.ht : Int) - (r.ht : Int) ∧ (l.ht : Int) - (r.ht : Int) ≤ 1 ∧
      Balanced l ∧ Balanced r

/-- The binary-search-tree order invariant. -/
def Ordered : Tree → Prop
  | Tree.nil => True
  | Tree.node k _ _ l r =>
      (∀ x ∈ inorder l, x < k) ∧ (∀ x ∈ inorder r, k < x) ∧ Ordered l ∧ Ordered r

instance decHtOk : (t : Tree) → Decidable (HtOk t)
  | Tree.nil => .isTrue trivial
  | Tree.node _ _ _ l r =>
    have : Decidable (HtOk l) := decHtOk l
    have : Decidable (HtOk r) := decHtOk r
    show Decidable (_ ∧ _ ∧ _) from inferInstance

instance decBalanced : (t : Tree) → Decidable (Balanced t)
  | Tree.nil => .isTrue trivial
  | Tree.node _ _ _ l r =>
    have : Decidable (Balanced l) := decBalanced l
    have : Decidable (Balanced r) := decBalanced r
    show Decidable (_ ∧ _ ∧ _ ∧ _) from inferInstance

instance decOrdered : (t : Tree) → Decidable (Ordered t)
  | Tree.nil => .isTrue trivial
  | Tree.node _ _ _ l r =>
    have : Decidable (Ordered l) := decOrdered l
    have : Decidable (Ordered r) := decOrdered r
    show Decidable (_ ∧ _ ∧ _ ∧ _) from inferInstance

/-- The `AVLTree` objects reachable through the public mutating interface:
the freshly constructed empty tree, closed under `insert` and `remove`. -/
inductive Reachable : AVLTree → Prop
  | empty : Reachable AVLTree.empty
  | insert (t : AVLTree) (key : KeyType) (value : ValueType) :
      Reachable t → Reachable (t.insert key value).2
  | remove (t : AVLTree) (key : KeyType) :
      Reachable t → Reachable (t.remove key).2

/-- The representation invariant tying the four data-model facts together:
correct cached heights, AVL balance, search-tree order, and a size counter
that equals the number of reachable nodes. -/
def Inv (t : AVLTree) : Prop :=
  HtOk t.root ∧ Balanced t.root ∧ Ordered t.root ∧ t.treeSize = numNodes t.root

/-- The tree of the spec's range-query scenario: keys 1,3,5,7,9 (as
`std::string`s, the code's key type) inserted in that order with values
`v1,v3,v5,v7,v9`. -/
def rangeTree (v1 v3 v5 v7 v9 : ValueType) : AVLTree :=
  (((((AVLTree.empty.insert (str "1") v1).2.insert (str "3") v3).2.insert
      (str "5") v5).2.insert (str "7") v7).2.insert (str "9") v9).2

/-- The tree of the spec's removal scenario: keys 10,5,15,3,7,12,20 (as
`std::string`s, the code's key type) inserted in that order, with each key's
numeric reading as its value. -/
def removalTree : AVLTree :=
  (((((((AVLTree.empty.insert (str "10") 10).2.insert (str "5") 5).2.insert
      (str "15") 15).2.insert (str "3") 3).2.insert (str "7") 7).2.insert
      (str "12") 12).2.insert (str "20") 20).2

/-! ### Basic lemmas -/

@[simp] lemma ht_nil : ht .nil = 0 := rfl

@[simp] lemma ht_node (k : KeyType) (v : ValueType) (h : Nat) (l r : Tree) :
    ht (.node k v h l r) = h := rfl

@[simp] lemma inorder_nil : inorder .nil = [] := rfl

@[simp] lemma inorder_node (k : KeyType) (v : ValueType) (h : Nat) (l r : Tree) :
    inorder (.node k v h l r) = inorder l ++ k :: inorder r := rfl

@[simp] lemma numNodes_nil : numNodes .nil = 0 := rfl

@[simp] lemma numNodes_node (k : KeyType) (v : ValueType) (h : Nat) (l r : Tree) :
    numNodes (.node k v h l r) = numNodes l + numNodes r + 1 := rfl

@[simp] lemma updateHeight_nil : updateHeight .nil = .nil := rfl

@[simp] lemma updateHeight_node (k : KeyType) (v : ValueType) (h : Nat) (l r : Tree) :
    updateHeight (.node k v h l r) = .node k v (1 + max l.ht r.ht) l r := rfl

@[simp] lemma bal_node (k : KeyType) (v : ValueType) (h : Nat) (l r : Tree) :
    bal (.node k v h l r) = (l.ht : Int) - (r.ht : Int) := rfl

lemma updateHeight_of_htOk {t : Tree} (h : HtOk t) : updateHeight t = t := by
  cases t with
  | nil => rfl
  | node k v ht l r => simp [HtOk] at h; simp [h.1]

@[simp] lemma inorder_updateHeight (t : Tree) : inorder (updateHeight t) = inorder t := by
  cases t <;> rfl

@[simp] lemma numNodes_updateHeight (t : Tree) : numNodes (updateHeight t) = numNodes t := by
  cases t <;> rfl

lemma inorder_rotateLeft (t : Tree) : inorder (rotateLeft t) = inorder t := by
  match t with
  | .nil => rfl
  | .node _ _ _ _ .nil => rfl
  | .node k v h l (.node rk rv rh rl rr) => simp [rotateLeft]

lemma inorder_rotateRight (t : Tree) : inorder (rotateRight t) = inorder t := by
  match t with
  | .nil => rfl
  | .node _ _ _ .nil _ => rfl
  | .node k v h (.node lk lv lh ll lr) r => simp [rotateRight]

lemma numNodes_rotateLeft (t : Tree) : numNodes (rotateLeft t) = numNodes t := by
  match t with
  | .nil => rfl
  | .node _ _ _ _ .nil => rfl
  | .node k v h l (.node rk rv rh rl rr) => simp [rotateLeft]; omega

lemma numNodes_rotateRight (t : Tree) : numNodes (rotateRight t) = numNodes t := by
  match t with
  | .nil => rfl
  | .node _ _ _ .nil _ => rfl
  | .node k v h (.node lk lv lh ll lr) r => simp [rotateRight]; omega

lemma inorder_balanceNode (t : Tree) : inorder (balanceNode t) = inorder t := by
  cases t with
  | nil => rfl
  | node k v h l r =>
    simp only [balanceNode]
    split_ifs with h1 h2 h3 h4 <;>
      simp [inorder_rotateRight, inorder_rotateLeft]

lemma numNodes_balanceNode (t : Tree) : numNodes (balanceNode t) = numNodes t := by
  cases t with
  | nil => rfl
  | node k v h l r =>
    simp only [balanceNode]
    split_ifs with h1 h2 h3 h4 <;>
      simp [numNodes_rotateRight, numNodes_rotateLeft]

@[simp] lemma rebalanceTop_nil : rebalanceTop .nil = .nil := rfl

lemma rebalanceTop_node (k : KeyType) (v : ValueType) (h : Nat) (l r : Tree) :
    rebalanceTop (.node k v h l r) = balanceNode (updateHeight (.node k v h l r)) := rfl

lemma inorder_rebalanceTop (t : Tree) : inorder (rebalanceTop t) = inorder t := by
  cases t with
  | nil => rfl
  | node k v h l r => rw [rebalanceTop_node, inorder_balanceNode, inorder_updateHeight]

lemma numNodes_rebalanceTop (t : Tree) : numNodes (rebalanceTop t) = numNodes t := by
  cases t with
  | nil => rfl
  | node k v h l r => rw [rebalanceTop_node, numNodes_balanceNode, numNodes_updateHeight]

lemma balanceNode_of_balanced {k : KeyType} {v : ValueType} {h : Nat} {l r : Tree}
    (hb1 : -1 ≤ (l.ht : Int) - (r.ht : Int)) (hb2 : (l.ht : Int) - (r.ht : Int) ≤ 1) :
    balanceNode (.node k v h l r) = .node k v h l r := by
  simp only [balanceNode, bal_node]
  rw [if_neg (by omega), if_neg (by omega)]

lemma rebalanceTop_of_invariant {k : KeyType} {v : ValueType} {h : Nat} {l r : Tree}
    (hh : h = 1 + max l.ht r.ht)
    (hb1 : -1 ≤ (l.ht : Int) - (r.ht : Int)) (hb2 : (l.ht : Int) - (r.ht : Int) ≤ 1) :
    rebalanceTop (.node k v h l r) = .node k v h l r := by
  rw [rebalanceTop_node, updateHeight_node, ← hh, balanceNode_of_balanced hb1 hb2]

lemma getKeysAux_eq (t : Tree) : ∀ acc, getKeysAux t acc = acc ++ inorder t := by
  induction t with
  | nil => intro acc; simp [getKeysAux]
  | node k v h l r ihl ihr => intro acc; simp [getKeysAux, ihl, ihr]

lemma keys_eq_inorder (t : AVLTree) : t.keys = inorder t.root := by
  rw [AVLTree.keys, getKeysAux_eq]; rfl

/-! ### Order invariant: `Ordered` vs. sortedness of the in-order sequence -/

lemma sorted_node_iff (k : KeyType) (l r : List KeyType) :
    (l ++ k :: r).Sorted (· < ·) ↔
      l.Sorted (· < ·) ∧ r.Sorted (· < ·) ∧ (∀ x ∈ l, x < k) ∧ (∀ y ∈ r, k < y) := by
  rw [List.Sorted, List.pairwise_append, List.pairwise_cons]
  constructor
  · rintro ⟨pl, ⟨hk, pr⟩, cross⟩
    exact ⟨pl, pr, fun x hx => cross x hx k (List.mem_cons_self _ _), hk⟩
  · rintro ⟨pl, pr, hlk, hkr⟩
    refine ⟨pl, ⟨hkr, pr⟩, ?_⟩
    intro a ha b hb
    rcases List.mem_cons.mp hb with rfl | hb
    · exact hlk a ha
    · exact lt_trans (hlk a ha) (hkr b hb)

lemma ordered_iff_sorted (t : Tree) : Ordered t ↔ (inorder t).Sorted (· < ·) := by
  induction t with
  | nil => simp [Ordered]
  | node k v h l r ihl ihr =>
    rw [inorder_node, sorted_node_iff]
    simp only [Ordered]
    rw [ihl, ihr]
    tauto

/-- `findMin` returns the left-most node, whose key heads the in-order
sequence. -/
lemma inorder_findMin (t : Tree) : t ≠ .nil → ∃ rest, inorder t = (findMin t).keyD :: rest := by
  induction t with
  | nil => intro h; exact absurd rfl h
  | node k v h l r ihl _ =>
    intro _
    cases l with
    | nil => exact ⟨inorder r, by simp [findMin, keyD]⟩
    | node lk lv lh ll lr =>
      obtain ⟨rest, hrest⟩ := ihl (by simp)
      refine ⟨rest ++ k :: inorder r, ?_⟩
      simp [findMin, hrest]

/-! ### `contains`, duplicate inserts -/

/-- A duplicate insert returns `false` before running any height update or
rebalancing, so the tree is returned exactly as it was. -/
lemma insertAux_of_contains (t : Tree) (key : KeyType) (v : ValueType)
    (hc : containsAux t key = true) : insertAux t key v = (false, t) := by
  induction t with
  | nil => simp [containsAux] at hc
  | node k v' h l r ihl ihr =>
    by_cases h1 : key < k
    · rw [containsAux, if_pos h1] at hc
      simp [insertAux, if_pos h1, ihl hc]
    · by_cases h2 : key > k
      · rw [containsAux, if_neg h1, if_pos h2] at hc
        simp [insertAux, if_neg h1, if_pos h2, ihr hc]
      · simp [insertAux, if_neg h1, if_neg h2]

lemma containsAux_iff_mem (t : Tree) (key : KeyType) (ho : Ordered t) :
    containsAux t key = true ↔ key ∈ inorder t := by
  induction t with
  | nil => simp [containsAux]
  | node k v h l r ihl ihr =>
    obtain ⟨hlk, hkr, ol, orr⟩ := ho
    by_cases h1 : key < k
    · rw [containsAux, if_pos h1, ihl ol, inorder_node]
      constructor
      · intro hm; exact List.mem_append_left _ hm
      · intro hm
        rcases List.mem_append.mp hm with hm | hm
        · exact hm
        · rcases List.mem_cons.mp hm with rfl | hm
          · exact absurd h1 (lt_irrefl key)
          · exact absurd (lt_trans h1 (hkr key hm)) (lt_irrefl key)
    · by_cases h2 : key > k
      · rw [containsAux, if_neg h1, if_pos h2, ihr orr, inorder_node]
        constructor
        · intro hm; exact List.mem_append_right _ (List.mem_cons_of_mem _ hm)
        · intro hm
          rcases List.mem_append.mp hm with hm | hm
          · exact absurd (lt_trans (hlk key hm) h2) (lt_irrefl key)
          · rcases List.mem_cons.mp hm with rfl | hm
            · exact absurd h2 (lt_irrefl key)
            · exact hm
      · have hk : key = k := le_antisymm (le_of_not_lt h2) (le_of_not_lt h1)
        subst hk
        simp [containsAux, if_neg h1, if_neg h2]

/-! ### Node counts -/

lemma insertAux_numNodes (t : Tree) (key : KeyType) (v : ValueType) :
    numNodes (insertAux t key v).2 =
      numNodes t + (if (insertAux t key v).1 then 1 else 0) := by
  induction t with
  | nil => simp [insertAux]
  | node k v' h l r ihl ihr =>
    by_cases h1 : key < k
    · simp only [insertAux, if_pos h1]
      rcases hq : insertAux l key v with ⟨f, l'⟩
      rw [hq] at ihl
      cases f <;>
        simp_all [numNodes_balanceNode] <;> omega
    · by_cases h2 : key > k
      · simp only [insertAux, if_neg h1, if_pos h2]
        rcases hq : insertAux r key v with ⟨f, r'⟩
        rw [hq] at ihr
        cases f <;>
          simp_all [numNodes_balanceNode] <;> omega
      · simp [insertAux, if_neg h1, if_neg h2]

lemma removeAux_numNodes (t : Tree) : ∀ key,
    numNodes t =
      numNodes (removeAux t key).2 + (if (removeAux t key).1 then 1 else 0) := by
  induction t with
  | nil => intro key; simp [removeAux]
  | node k v h l r ihl ihr =>
    intro key
    by_cases h1 : key < k
    · simp only [removeAux, if_pos h1]
      rcases hq : removeAux l key with ⟨f, l'⟩
      have := ihl key
      rw [hq] at this
      cases f <;> simp_all [numNodes_rebalanceTop] <;> omega
    · by_cases h2 : key > k
      · simp only [removeAux, if_neg h1, if_pos h2]
        rcases hq : removeAux r key with ⟨f, r'⟩
        have := ihr key
        rw [hq] at this
        cases f <;> simp_all [numNodes_rebalanceTop] <;> omega
      · simp only [removeAux, if_neg h1, if_neg h2]
        cases l with
        | nil =>
          cases r with
          | nil => simp
          | node rk rv rh rl rr => simp [numNodes_rebalanceTop]
        | node lk lv lh ll lr =>
          cases r with
          | nil => simp [numNodes_rebalanceTop]
          | node rk rv rh rl rr =>
            rcases hq : removeAux (.node rk rv rh rl rr)
                (findMin (.node rk rv rh rl rr)).keyD with ⟨f, r'⟩
            have := ihr (findMin (.node rk rv rh rl rr)).keyD
            rw [hq] at this
            cases f <;> simp_all [numNodes_rebalanceTop] <;> omega

/-! ### The rebalancing step restores the AVL invariant -/

@[simp] lemma isNil_nil : (Tree.nil).isNil = true := rfl

@[simp] lemma isNil_node (k : KeyType) (v : ValueType) (h : Nat) (l r : Tree) :
    (Tree.node k v h l r).isNil = false := rfl

/-- `balanceNode` on a node whose left subtree is exactly two levels taller
than its right subtree, both AVL: the appropriate single or double rotation
restores the invariant, and the resulting height is `r.ht + 2` or
`r.ht + 3`. -/
lemma balanceNode_left_heavy (k : KeyType) (v : ValueType) (hgt : Nat)
    (lk : KeyType) (lv : ValueType) (lh : Nat) (ll lr : Tree) (r : Tree)
    (hOkll : HtOk ll) (hOklr : HtOk lr) (hOkr : HtOk r)
    (hBll : Balanced ll) (hBlr : Balanced lr) (hBr : Balanced r)
    (hlh : lh = 1 + max ll.ht lr.ht)
    (hb1 : -1 ≤ (ll.ht : Int) - lr.ht) (hb2 : (ll.ht : Int) - lr.ht ≤ 1)
    (hheavy : lh = r.ht + 2) :
    HtOk (balanceNode (.node k v hgt (.node lk lv lh ll lr) r)) ∧
    Balanced (balanceNode (.node k v hgt (.node lk lv lh ll lr) r)) ∧
    ((balanceNode (.node k v hgt (.node lk lv lh ll lr) r)).ht = r.ht + 2 ∨
     (balanceNode (.node k v hgt (.node lk lv lh ll lr) r)).ht = r.ht + 3) := by
  simp only [balanceNode, bal_node, ht_node]
  rw [if_pos (show (lh : Int) - r.ht > 1 by omega)]
  by_cases hc : ((ll.ht : Int) - lr.ht < 0)
  · rw [if_pos ⟨rfl, hc⟩]
    cases lr with
    | nil => simp [ht] at hc; omega
    | node mk mv mh ml mr =>
      obtain ⟨hmh, hOkml, hOkmr⟩ := hOklr
      obtain ⟨hmb1, hmb2, hBml, hBmr⟩ := hBlr
      simp only [ht_node] at hlh hc hb1 hb2
      simp only [rotateLeft, rotateRight, updateHeight_node, ht_node]
      refine ⟨⟨rfl, ⟨rfl, hOkll, hOkml⟩, rfl, hOkmr, hOkr⟩,
        ⟨?_, ?_, ⟨?_, ?_, hBll, hBml⟩, ?_, ?_, hBmr, hBr⟩, ?_⟩ <;>
        (try simp only [ht_node]) <;> omega
  · rw [if_neg (fun hx => hc hx.2)]
    simp only [rotateRight, updateHeight_node, ht_node]
    refine ⟨⟨rfl, hOkll, rfl, hOklr, hOkr⟩,
      ⟨?_, ?_, hBll, ?_, ?_, hBlr, hBr⟩, ?_⟩ <;>
      (try simp only [ht_node]) <;> omega

/-- Mirror image of `balanceNode_left_heavy` for a right-heavy node. -/
lemma balanceNode_right_heavy (k : KeyType) (v : ValueType) (hgt : Nat)
    (l : Tree) (rk : KeyType) (rv : ValueType) (rh : Nat) (rl rr : Tree)
    (hOkl : HtOk l) (hOkrl : HtOk rl) (hOkrr : HtOk rr)
    (hBl : Balanced l) (hBrl : Balanced rl) (hBrr : Balanced rr)
    (hrh : rh = 1 + max rl.ht rr.ht)
    (hb1 : -1 ≤ (rl.ht : Int) - rr.ht) (hb2 : (rl.ht : Int) - rr.ht ≤ 1)
    (hheavy : rh = l.ht + 2) :
    HtOk (balanceNode (.node k v hgt l (.node rk rv rh rl rr))) ∧
    Balanced (balanceNode (.node k v hgt l (.node rk rv rh rl rr))) ∧
    ((balanceNode (.node k v hgt l (.node rk rv rh rl rr))).ht = l.ht + 2 ∨
     (balanceNode (.node k v hgt l (.node rk rv rh rl rr))).ht = l.ht + 3) := by
  simp only [balanceNode, bal_node, ht_node]
  rw [if_neg (show ¬ ((l.ht : Int) - rh > 1) by omega),
    if_pos (show (l.ht : Int) - rh < -1 by omega)]
  by_cases hc : ((rl.ht : Int) - rr.ht > 0)
  · rw [if_pos ⟨rfl, hc⟩]
    cases rl with
    | nil => simp [ht] at hc; omega
    | node mk mv mh ml mr =>
      obtain ⟨hmh, hOkml, hOkmr⟩ := hOkrl
      obtain ⟨hmb1, hmb2, hBml, hBmr⟩ := hBrl
      simp only [ht_node] at hrh hc hb1 hb2
      simp only [rotateRight, rotateLeft, updateHeight_node, ht_node]
      refine ⟨⟨rfl, ⟨rfl, hOkl, hOkml⟩, rfl, hOkmr, hOkrr⟩,
        ⟨?_, ?_, ⟨?_, ?_, hBl, hBml⟩, ?_, ?_, hBmr, hBrr⟩, ?_⟩ <;>
        (try simp only [ht_node]) <;> omega
  · rw [if_neg (fun hx => hc hx.2)]
    simp only [rotateLeft, updateHeight_node, ht_node]
    refine ⟨⟨rfl, ⟨rfl, hOkl, hOkrl⟩, hOkrr⟩,
      ⟨?_, ?_, ⟨?_, ?_, hBl, hBrl⟩, hBrr⟩, ?_⟩ <;>
      (try simp only [ht_node]) <;> omega

/-- The `updateHeight`-then-`balanceNode` step that insert and remove run on
every node of the recursion path: if both subtrees are AVL and their heights
differ by at most 2, the result is AVL, with height `1 + max` (no rotation
or height-preserving rotation) or exactly `max` (height-shrinking rotation,
only possible when the subtree heights differ by exactly 2). -/
lemma rebalance_step (k : KeyType) (v : ValueType) (hgt : Nat) (l r : Tree)
    (hOkl : HtOk l) (hOkr : HtOk r) (hBl : Balanced l) (hBr : Balanced r)
    (hd1 : (l.ht : Int) - r.ht ≤ 2) (hd2 : (r.ht : Int) - l.ht ≤ 2) :
    HtOk (rebalanceTop (.node k v hgt l r)) ∧
    Balanced (rebalanceTop (.node k v hgt l r)) ∧
    ((rebalanceTop (.node k v hgt l r)).ht = 1 + max l.ht r.ht ∨
      ((rebalanceTop (.node k v hgt l r)).ht = max l.ht r.ht ∧
        ((l.ht : Int) - r.ht = 2 ∨ (r.ht : Int) - l.ht = 2))) := by
  rw [rebalanceTop_node, updateHeight_node]
  by_cases hbal : (-1 ≤ (l.ht : Int) - r.ht ∧ (l.ht : Int) - r.ht ≤ 1)
  · rw [balanceNode_of_balanced hbal.1 hbal.2]
    exact ⟨⟨rfl, hOkl, hOkr⟩, ⟨hbal.1, hbal.2, hBl, hBr⟩, Or.inl rfl⟩
  · by_cases hlheavy : (l.ht : Int) - r.ht = 2
    · cases l with
      | nil => simp [ht] at hlheavy; omega
      | node lk lv lh ll lr =>
        obtain ⟨hlh, hOkll, hOklr⟩ := hOkl
        obtain ⟨hb1, hb2, hBll, hBlr⟩ := hBl
        simp only [ht_node] at hlheavy hd1 hd2
        obtain ⟨h1, h2, h3⟩ := balanceNode_left_heavy k v (1 + max (Tree.node lk lv lh ll lr).ht r.ht)
          lk lv lh ll lr r hOkll hOklr hOkr hBll hBlr hBr hlh hb1 hb2 (by omega)
        refine ⟨h1, h2, ?_⟩
        simp only [ht_node] at h3 ⊢
        omega
    · have hrheavy : (r.ht : Int) - l.ht = 2 := by omega
      cases r with
      | nil => simp [ht] at hrheavy; omega
      | node rk rv rh rl rr =>
        obtain ⟨hrh, hOkrl, hOkrr⟩ := hOkr
        obtain ⟨hb1, hb2, hBrl, hBrr⟩ := hBr
        simp only [ht_node] at hrheavy hd1 hd2
        obtain ⟨h1, h2, h3⟩ := balanceNode_right_heavy k v
          (1 + max l.ht (Tree.node rk rv rh rl rr).ht)
          l rk rv rh rl rr hOkl hOkrl hOkrr hBl hBrl hBrr hrh hb1 hb2 (by omega)
        refine ⟨h1, h2, ?_⟩
        simp only [ht_node] at h3 ⊢
        omega

/-! ### Insert and remove preserve the AVL invariant -/

/-- A failed insert hands the subtree back unchanged. -/
lemma insertAux_fail (t : Tree) (key : KeyType) (v : ValueType)
    (hf : (insertAux t key v).1 = false) : (insertAux t key v).2 = t := by
  induction t with
  | nil => simp [insertAux] at hf
  | node k v' h l r ihl ihr =>
    by_cases h1 : key < k
    · simp only [insertAux, if_pos h1] at hf ⊢
      rcases hq : insertAux l key v with ⟨f, l'⟩
      rw [hq] at ihl hf
      cases f
      · have hl : l' = l := ihl rfl
        subst hl
        simp
      · simp at hf
    · by_cases h2 : key > k
      · simp only [insertAux, if_neg h1, if_pos h2] at hf ⊢
        rcases hq : insertAux r key v with ⟨f, r'⟩
        rw [hq] at ihr hf
        cases f
        · have hr : r' = r := ihr rfl
          subst hr
          simp
        · simp at hf
      · simp [insertAux, if_neg h1, if_neg h2]

lemma insertAux_avl (t : Tree) (key : KeyType) (v : ValueType)
    (hOk : HtOk t) (hB : Balanced t) :
    HtOk (insertAux t key v).2 ∧ Balanced (insertAux t key v).2 ∧
    ((insertAux t key v).2.ht = t.ht ∨ (insertAux t key v).2.ht = t.ht + 1) := by
  induction t with
  | nil => exact ⟨⟨rfl, trivial, trivial⟩, ⟨by simp [ht], by simp [ht], trivial, trivial⟩,
      by simp [insertAux, ht]⟩
  | node k v' h l r ihl ihr =>
    obtain ⟨hh, hOkl, hOkr⟩ := hOk
    obtain ⟨hb1, hb2, hBl, hBr⟩ := hB
    by_cases h1 : key < k
    · simp only [insertAux, if_pos h1]
      rcases hq : insertAux l key v with ⟨f, l'⟩
      obtain ⟨hOk', hB', hht'⟩ := ihl hOkl hBl
      rw [hq] at hOk' hB' hht'
      simp only [] at hOk' hB' hht'
      cases f
      · have : l' = l := by have := insertAux_fail l key v (by rw [hq]); rwa [hq] at this
        subst this
        refine ⟨⟨hh, hOkl, hOkr⟩, ⟨hb1, hb2, hBl, hBr⟩, ?_⟩
        rw [if_neg (by simp)]
        exact Or.inl rfl
      · rw [if_pos (rfl : ((true, l').1 : Bool) = true)]
        simp only []
        rw [← rebalanceTop_node]
        obtain ⟨g1, g2, g3⟩ := rebalance_step k v' h l' r hOk' hOkr hB' hBr
          (by omega) (by omega)
        refine ⟨g1, g2, ?_⟩
        simp only [ht_node]
        rcases g3 with g3 | ⟨g3, g4 | g4⟩ <;> rw [g3] <;> omega
    · by_cases h2 : key > k
      · simp only [insertAux, if_neg h1, if_pos h2]
        rcases hq : insertAux r key v with ⟨f, r'⟩
        obtain ⟨hOk', hB', hht'⟩ := ihr hOkr hBr
        rw [hq] at hOk' hB' hht'
        simp only [] at hOk' hB' hht'
        cases f
        · have : r' = r := by have := insertAux_fail r key v (by rw [hq]); rwa [hq] at this
          subst this
          refine ⟨⟨hh, hOkl, hOkr⟩, ⟨hb1, hb2, hBl, hBr⟩, ?_⟩
          rw [if_neg (by simp)]
          exact Or.inl rfl
        · rw [if_pos (rfl : ((true, r').1 : Bool) = true)]
          simp only []
          rw [← rebalanceTop_node]
          obtain ⟨g1, g2, g3⟩ := rebalance_step k v' h l r' hOkl hOk' hBl hB'
            (by omega) (by omega)
          refine ⟨g1, g2, ?_⟩
          simp only [ht_node]
          rcases g3 with g3 | ⟨g3, g4 | g4⟩ <;> rw [g3] <;> omega
      · simp only [insertAux, if_neg h1, if_neg h2]
        exact ⟨⟨hh, hOkl, hOkr⟩, ⟨hb1, hb2, hBl, hBr⟩, Or.inl trivial⟩

lemma removeAux_avl (t : Tree) : ∀ key, HtOk t → Balanced t →
    HtOk (removeAux t key).2 ∧ Balanced (removeAux t key).2 ∧
    (t.ht = (removeAux t key).2.ht ∨ t.ht = (removeAux t key).2.ht + 1) := by
  induction t with
  | nil => exact fun key _ _ => ⟨trivial, trivial, Or.inl rfl⟩
  | node k v h l r ihl ihr =>
    intro key hOk hB
    obtain ⟨hh, hOkl, hOkr⟩ := hOk
    obtain ⟨hb1, hb2, hBl, hBr⟩ := hB
    by_cases h1 : key < k
    · simp only [removeAux, if_pos h1]
      rcases hq : removeAux l key with ⟨f, l'⟩
      obtain ⟨hOk', hB', hht'⟩ := ihl key hOkl hBl
      rw [hq] at hOk' hB' hht'
      simp only at hOk' hB' hht' ⊢
      obtain ⟨g1, g2, g3⟩ := rebalance_step k v h l' r hOk' hOkr hB' hBr
        (by omega) (by omega)
      refine ⟨g1, g2, ?_⟩
      rcases g3 with g3 | ⟨g3, g4 | g4⟩ <;> rw [ht_node, g3] <;> omega
    · by_cases h2 : key > k
      · simp only [removeAux, if_neg h1, if_pos h2]
        rcases hq : removeAux r key with ⟨f, r'⟩
        obtain ⟨hOk', hB', hht'⟩ := ihr key hOkr hBr
        rw [hq] at hOk' hB' hht'
        simp only at hOk' hB' hht' ⊢
        obtain ⟨g1, g2, g3⟩ := rebalance_step k v h l r' hOkl hOk' hBl hB'
          (by omega) (by omega)
        refine ⟨g1, g2, ?_⟩
        rcases g3 with g3 | ⟨g3, g4 | g4⟩ <;> rw [ht_node, g3] <;> omega
      · simp only [removeAux, if_neg h1, if_neg h2]
        cases l with
        | nil =>
          cases r with
          | nil =>
            simp only [rebalanceTop_nil]
            exact ⟨trivial, trivial, by simp [ht] at hh ⊢; omega⟩
          | node rk rv rh rl rr =>
            simp only
            obtain ⟨hrh, hOkrl, hOkrr⟩ := hOkr
            obtain ⟨hrb1, hrb2, hBrl, hBrr⟩ := hBr
            rw [rebalanceTop_of_invariant hrh hrb1 hrb2]
            refine ⟨⟨hrh, hOkrl, hOkrr⟩, ⟨hrb1, hrb2, hBrl, hBrr⟩, ?_⟩
            simp only [ht_node] at hh ⊢
            simp only [ht_nil] at hh
            omega
        | node lk lv lh ll lr =>
          cases r with
          | nil =>
            simp only
            obtain ⟨hlh, hOkll, hOklr⟩ := hOkl
            obtain ⟨hlb1, hlb2, hBll, hBlr⟩ := hBl
            rw [rebalanceTop_of_invariant hlh hlb1 hlb2]
            refine ⟨⟨hlh, hOkll, hOklr⟩, ⟨hlb1, hlb2, hBll, hBlr⟩, ?_⟩
            simp only [ht_node] at hh ⊢
            simp only [ht_nil] at hh
            omega
          | node rk rv rh rl rr =>
            simp only
            rcases hq : removeAux (.node rk rv rh rl rr)
                (findMin (.node rk rv rh rl rr)).keyD with ⟨f, r'⟩
            obtain ⟨hOk', hB', hht'⟩ :=
              ihr (findMin (.node rk rv rh rl rr)).keyD hOkr hBr
            rw [hq] at hOk' hB' hht'
            simp only at hOk' hB' hht' ⊢
            obtain ⟨g1, g2, g3⟩ := rebalance_step
              (findMin (.node rk rv rh rl rr)).keyD
              (findMin (.node rk rv rh rl rr)).valD h (.node lk lv lh ll lr) r'
              hOkl hOk' hBl hB'
              (by simp only [ht_node] at hht' hb1 hb2 ⊢; omega)
              (by simp only [ht_node] at hht' hb1 hb2 ⊢; omega)
            refine ⟨g1, g2, ?_⟩
            simp only [ht_node] at hht' hb1 hb2 g3 hh ⊢
            rcases g3 with g3 | ⟨g3, g4 | g4⟩ <;> rw [g3] <;> omega

/-! ### Insert and remove preserve the order invariant -/

lemma insertAux_ordered (t : Tree) (key : KeyType) (v : ValueType) (ho : Ordered t) :
    Ordered (insertAux t key v).2 ∧
    (∀ x ∈ inorder (insertAux t key v).2, x = key ∨ x ∈ inorder t) ∧
    ((insertAux t key v).1 = true → key ∈ inorder (insertAux t key v).2) := by
  induction t with
  | nil =>
    refine ⟨⟨by simp, by simp, trivial, trivial⟩, ?_, ?_⟩
    · intro x hx
      simp only [insertAux, inorder_node, inorder_nil] at hx
      simp at hx
      exact Or.inl hx
    · intro _
      simp [insertAux]
  | node k v' h l r ihl ihr =>
    obtain ⟨hlk, hkr, ol, orr⟩ := ho
    by_cases h1 : key < k
    · simp only [insertAux, if_pos h1]
      rcases hq : insertAux l key v with ⟨f, l'⟩
      obtain ⟨ho', hmem', hkey'⟩ := ihl ol
      rw [hq] at ho' hmem' hkey'
      simp only [] at ho' hmem' hkey'
      cases f
      · have : l' = l := by have := insertAux_fail l key v (by rw [hq]); rwa [hq] at this
        subst this
        rw [if_neg (by simp)]
        exact ⟨⟨hlk, hkr, ol, orr⟩, fun x hx => Or.inr hx, by simp⟩
      · rw [if_pos (rfl : ((true, l').1 : Bool) = true)]
        simp only []
        have hio : inorder (balanceNode (updateHeight (.node k v' h l' r)))
            = inorder l' ++ k :: inorder r := by
          rw [inorder_balanceNode, inorder_updateHeight, inorder_node]
        have hl'k : ∀ x ∈ inorder l', x < k := by
          intro x hx
          rcases hmem' x hx with rfl | hx'
          · exact h1
          · exact hlk x hx'
        refine ⟨?_, ?_, ?_⟩
        · rw [ordered_iff_sorted, hio, sorted_node_iff]
          exact ⟨(ordered_iff_sorted l').mp ho', (ordered_iff_sorted r).mp orr, hl'k, hkr⟩
        · intro x hx
          rw [hio] at hx
          rcases List.mem_append.mp hx with hx | hx
          · rcases hmem' x hx with rfl | hx'
            · exact Or.inl rfl
            · exact Or.inr (List.mem_append_left _ hx')
          · exact Or.inr (List.mem_append_right _ hx)
        · intro _
          rw [hio]
          exact List.mem_append_left _ (hkey' rfl)
    · by_cases h2 : key > k
      · simp only [insertAux, if_neg h1, if_pos h2]
        rcases hq : insertAux r key v with ⟨f, r'⟩
        obtain ⟨ho', hmem', hkey'⟩ := ihr orr
        rw [hq] at ho' hmem' hkey'
        simp only [] at ho' hmem' hkey'
        cases f
        · have : r' = r := by have := insertAux_fail r key v (by rw [hq]); rwa [hq] at this
          subst this
          rw [if_neg (by simp)]
          exact ⟨⟨hlk, hkr, ol, orr⟩, fun x hx => Or.inr hx, by simp⟩
        · rw [if_pos (rfl : ((true, r').1 : Bool) = true)]
          simp only []
          have hio : inorder (balanceNode (updateHeight (.node k v' h l r')))
              = inorder l ++ k :: inorder r' := by
            rw [inorder_balanceNode, inorder_updateHeight, inorder_node]
          have hkr' : ∀ y ∈ inorder r', k < y := by
            intro y hy
            rcases hmem' y hy with rfl | hy'
            · exact h2
            · exact hkr y hy'
          refine ⟨?_, ?_, ?_⟩
          · rw [ordered_iff_sorted, hio, sorted_node_iff]
            exact ⟨(ordered_iff_sorted l).mp ol, (ordered_iff_sorted r').mp ho', hlk, hkr'⟩
          · intro x hx
            rw [hio] at hx
            rcases List.mem_append.mp hx with hx | hx
            · exact Or.inr (List.mem_append_left _ hx)
            · rcases List.mem_cons.mp hx with rfl | hx'
              · exact Or.inr (List.mem_append_right _ (List.mem_cons_self _ _))
              · rcases hmem' x hx' with rfl | hx''
                · exact Or.inl rfl
                · exact Or.inr (List.mem_append_right _ (List.mem_cons_of_mem _ hx''))
          · intro _
            rw [hio]
            exact List.mem_append_right _ (List.mem_cons_of_mem _ (hkey' rfl))
      · simp only [insertAux, if_neg h1, if_neg h2]
        exact ⟨⟨hlk, hkr, ol, orr⟩, fun x hx => Or.inr hx, by simp⟩

lemma removeAux_ordered (t : Tree) : ∀ key, Ordered t →
    Ordered (removeAux t key).2 ∧ inorder (removeAux t key).2 = (inorder t).erase key := by
  induction t with
  | nil => intro key _; exact ⟨trivial, by simp [removeAux]⟩
  | node k v h l r ihl ihr =>
    intro key ho
    obtain ⟨hlk, hkr, ol, orr⟩ := ho
    by_cases h1 : key < k
    · simp only [removeAux, if_pos h1]
      rcases hq : removeAux l key with ⟨f, l'⟩
      obtain ⟨ho', hio'⟩ := ihl key ol
      rw [hq] at ho' hio'
      simp only [] at ho' hio' ⊢
      have hio : inorder (rebalanceTop (.node k v h l' r)) = inorder l' ++ k :: inorder r := by
        rw [inorder_rebalanceTop, inorder_node]
      have hsub : ∀ x ∈ inorder l', x ∈ inorder l := by
        intro x hx; rw [hio'] at hx; exact List.mem_of_mem_erase hx
      constructor
      · rw [ordered_iff_sorted, hio, sorted_node_iff]
        exact ⟨(ordered_iff_sorted l').mp ho', (ordered_iff_sorted r).mp orr,
          fun x hx => hlk x (hsub x hx), hkr⟩
      · rw [hio, hio', inorder_node]
        by_cases hmem : key ∈ inorder l
        · rw [List.erase_append_left _ hmem]
        · rw [List.erase_of_not_mem hmem, List.erase_append_right _ hmem,
            List.erase_cons_tail (by simpa using (ne_of_gt h1)),
            List.erase_of_not_mem
              (fun hx => absurd (hkr key hx) (not_lt.mpr (le_of_lt h1)))]
    · by_cases h2 : key > k
      · simp only [removeAux, if_neg h1, if_pos h2]
        rcases hq : removeAux r key with ⟨f, r'⟩
        obtain ⟨ho', hio'⟩ := ihr key orr
        rw [hq] at ho' hio'
        simp only [] at ho' hio' ⊢
        have hio : inorder (rebalanceTop (.node k v h l r')) = inorder l ++ k :: inorder r' := by
          rw [inorder_rebalanceTop, inorder_node]
        have hsub : ∀ x ∈ inorder r', x ∈ inorder r := by
          intro x hx; rw [hio'] at hx; exact List.mem_of_mem_erase hx
        have hknotl : key ∉ inorder l :=
          fun hx => absurd (hlk key hx) (not_lt.mpr (le_of_lt h2))
        constructor
        · rw [ordered_iff_sorted, hio, sorted_node_iff]
          exact ⟨(ordered_iff_sorted l).mp ol, (ordered_iff_sorted r').mp ho',
            hlk, fun y hy => hkr y (hsub y hy)⟩
        · rw [hio, hio', inorder_node, List.erase_append_right _ hknotl,
            List.erase_cons_tail (by simpa using (ne_of_lt h2))]
      · have hk : key = k := le_antisymm (le_of_not_lt h2) (le_of_not_lt h1)
        subst hk
        simp only [removeAux, if_neg h1, if_neg h2]
        have hknotl : key ∉ inorder l := fun hx => absurd (hlk key hx) (lt_irrefl key)
        cases l with
        | nil =>
          cases r with
          | nil => exact ⟨trivial, by simp⟩
          | node rk rv rh rl rr =>
            refine ⟨?_, ?_⟩
            · rw [ordered_iff_sorted, inorder_rebalanceTop]
              exact (ordered_iff_sorted _).mp orr
            · have hR : (inorder (.node key v h .nil (.node rk rv rh rl rr))).erase key
                  = inorder (.node rk rv rh rl rr) := by
                rw [inorder_node, inorder_nil, List.nil_append, List.erase_cons_head]
              rw [inorder_rebalanceTop, hR]
        | node lk lv lh ll lr =>
          cases r with
          | nil =>
            refine ⟨?_, ?_⟩
            · rw [ordered_iff_sorted, inorder_rebalanceTop]
              exact (ordered_iff_sorted _).mp ol
            · have hR : (inorder (.node key v h (.node lk lv lh ll lr) .nil)).erase key
                  = inorder (.node lk lv lh ll lr) := by
                rw [inorder_node, inorder_nil, List.erase_append_right _ hknotl,
                  List.erase_cons_head, List.append_nil]
              rw [inorder_rebalanceTop, hR]
          | node rk rv rh rl rr =>
            obtain ⟨rest, hrest⟩ := inorder_findMin (.node rk rv rh rl rr) (by simp)
            rcases hq : removeAux (.node rk rv rh rl rr)
                (findMin (.node rk rv rh rl rr)).keyD with ⟨f, r'⟩
            obtain ⟨ho', hio'⟩ := ihr (findMin (.node rk rv rh rl rr)).keyD orr
            rw [hq] at ho' hio'
            simp only [] at ho' hio' ⊢
            rw [hrest, List.erase_cons_head] at hio'
            have hskR : (findMin (.node rk rv rh rl rr)).keyD
                ∈ inorder (.node rk rv rh rl rr) := by
              rw [hrest]; exact List.mem_cons_self _ _
            have hksk : key < (findMin (.node rk rv rh rl rr)).keyD := hkr _ hskR
            have hsorted : (inorder (.node rk rv rh rl rr)).Sorted (· < ·) :=
              (ordered_iff_sorted _).mp orr
            rw [hrest] at hsorted
            have hsk_rest := (List.pairwise_cons.mp hsorted).1
            have hrest_sorted := (List.pairwise_cons.mp hsorted).2
            constructor
            · rw [ordered_iff_sorted, inorder_rebalanceTop, inorder_node, hio',
                sorted_node_iff]
              exact ⟨(ordered_iff_sorted _).mp ol, hrest_sorted,
                fun x hx => lt_trans (hlk x hx) hksk, hsk_rest⟩
            · have hR : (inorder (.node key v h (.node lk lv lh ll lr)
                    (.node rk rv rh rl rr))).erase key
                  = inorder (.node lk lv lh ll lr) ++ inorder (.node rk rv rh rl rr) := by
                rw [inorder_node, List.erase_append_right _ hknotl, List.erase_cons_head]
              have hL : inorder (rebalanceTop (.node (findMin (.node rk rv rh rl rr)).keyD
                    (findMin (.node rk rv rh rl rr)).valD h (.node lk lv lh ll lr) r'))
                  = inorder (.node lk lv lh ll lr)
                    ++ (findMin (.node rk rv rh rl rr)).keyD :: rest := by
                rw [inorder_rebalanceTop, inorder_node, hio']
              rw [hL, hR, hrest]

/-! ### Removing an absent key is a no-op -/

lemma removeAux_not_found (t : Tree) : ∀ key, HtOk t → Balanced t →
    containsAux t key = false → removeAux t key = (false, t) := by
  induction t with
  | nil => intro key _ _ _; rfl
  | node k v h l r ihl ihr =>
    intro key hOk hB hc
    obtain ⟨hh, hOkl, hOkr⟩ := hOk
    obtain ⟨hb1, hb2, hBl, hBr⟩ := hB
    by_cases h1 : key < k
    · simp only [containsAux, if_pos h1] at hc
      simp only [removeAux, if_pos h1, ihl key hOkl hBl hc]
      rw [rebalanceTop_of_invariant hh hb1 hb2]
    · by_cases h2 : key > k
      · simp only [containsAux, if_neg h1, if_pos h2] at hc
        simp only [removeAux, if_neg h1, if_pos h2, ihr key hOkr hBr hc]
        rw [rebalanceTop_of_invariant hh hb1 hb2]
      · simp only [containsAux, if_neg h1, if_neg h2] at hc
        simp at hc

/-- Inserting a key that is not present reports success. -/
lemma insertAux_of_not_contains (t : Tree) (key : KeyType) (v : ValueType)
    (hc : containsAux t key = false) : (insertAux t key v).1 = true := by
  induction t with
  | nil => rfl
  | node k v' h l r ihl ihr =>
    by_cases h1 : key < k
    · simp only [containsAux, if_pos h1] at hc
      simp only [insertAux, if_pos h1]
      rcases hq : insertAux l key v with ⟨f, l'⟩
      rw [hq] at ihl
      cases f
      · exact absurd (ihl hc) (by simp)
      · rfl
    · by_cases h2 : key > k
      · simp only [containsAux, if_neg h1, if_pos h2] at hc
        simp only [insertAux, if_neg h1, if_pos h2]
        rcases hq : insertAux r key v with ⟨f, r'⟩
        rw [hq] at ihr
        cases f
        · exact absurd (ihr hc) (by simp)
        · rfl
      · simp only [containsAux, if_neg h1, if_neg h2] at hc
        simp at hc

/-! ### `copyTree` is the identity on tree values -/

lemma copyTree_id (t : Tree) : copyTree t = t := by
  induction t with
  | nil => rfl
  | node k v h l r ihl ihr => simp [copyTree, ihl, ihr]

/-! ### The representation invariant holds in every reachable state -/

lemma inv_empty : Inv AVLTree.empty := ⟨trivial, trivial, trivial, rfl⟩

lemma inv_insert (t : AVLTree) (key : KeyType) (v : ValueType) (hI : Inv t) :
    Inv (t.insert key v).2 := by
  obtain ⟨h1, h2, h3, h4⟩ := hI
  obtain ⟨g1, g2, _⟩ := insertAux_avl t.root key v h1 h2
  obtain ⟨o1, _, _⟩ := insertAux_ordered t.root key v h3
  refine ⟨g1, g2, o1, ?_⟩
  have hn := insertAux_numNodes t.root key v
  simp only [AVLTree.insert]
  cases hf : (insertAux t.root key v).1 <;> rw [hf] at hn <;> simp at hn ⊢ <;> omega

lemma inv_remove (t : AVLTree) (key : KeyType) (hI : Inv t) :
    Inv (t.remove key).2 := by
  obtain ⟨h1, h2, h3, h4⟩ := hI
  obtain ⟨g1, g2, _⟩ := removeAux_avl t.root key h1 h2
  obtain ⟨o1, _⟩ := removeAux_ordered t.root key h3
  refine ⟨g1, g2, o1, ?_⟩
  have hn := removeAux_numNodes t.root key
  simp only [AVLTree.remove]
  cases hf : (removeAux t.root key).1 <;> rw [hf] at hn <;> simp at hn ⊢ <;> omega

lemma reachable_inv (t : AVLTree) (h : Reachable t) : Inv t := by
  induction h with
  | empty => exact inv_empty
  | insert t key v _ ih => exact inv_insert t key v ih
  | remove t key _ ih => exact inv_remove t key ih

/-! ### The claims -/

/-- C1: after every call to `insert(key, value)` or `remove(key)` returns
(i.e. in every tree reachable from the empty tree through the public
interface), every node reachable from the root has balance factor
height(left) − height(right) in {-1, 0, +1} (absent child = height 0);
`HtOk` guarantees the cached heights these balance factors are computed
from are the true subtree heights. -/
theorem claim_C1_balance_invariant (t : AVLTree) (h : Reachable t) :
    Balanced t.root ∧ HtOk t.root :=
  ⟨(reachable_inv t h).2.1, (reachable_inv t h).1⟩

theorem claim_C1_witness :
    Balanced ((AVLTree.empty.insert (str "b") 1).2.insert (str "a") 2).2.root ∧
    HtOk ((AVLTree.empty.insert (str "b") 1).2.insert (str "a") 2).2.root :=
  claim_C1_balance_invariant _
    (Reachable.insert _ _ _ (Reachable.insert _ _ _ Reachable.empty))

/-- C2: in every reachable tree, `keys()` returns the stored keys in
strictly ascending order with no duplicates and the search-tree order
invariant holds at every node; moreover both rotations preserve the
in-order key sequence exactly (so every insert, remove and rotation
preserves the ordering). -/
theorem claim_C2_order_invariant :
    (∀ t : AVLTree, Reachable t →
      t.keys.Sorted (· < ·) ∧ t.keys.Nodup ∧ Ordered t.root) ∧
    (∀ tr : Tree, inorder (rotateLeft tr) = inorder tr ∧
      inorder (rotateRight tr) = inorder tr) := by
  constructor
  · intro t h
    have ho : Ordered t.root := (reachable_inv t h).2.2.1
    have hs : t.keys.Sorted (· < ·) := by
      rw [keys_eq_inorder]; exact (ordered_iff_sorted _).mp ho
    exact ⟨hs, hs.nodup, ho⟩
  · exact fun tr => ⟨inorder_rotateLeft tr, inorder_rotateRight tr⟩

theorem claim_C2_witness :
    ((AVLTree.empty.insert (str "b") 1).2.insert (str "a") 2).2.keys.Sorted (· < ·) ∧
    ((AVLTree.empty.insert (str "b") 1).2.insert (str "a") 2).2.keys.Nodup ∧
    Ordered ((AVLTree.empty.insert (str "b") 1).2.insert (str "a") 2).2.root :=
  claim_C2_order_invariant.1 _
    (Reachable.insert _ _ _ (Reachable.insert _ _ _ Reachable.empty))

/-- C3: in every reachable tree, `size()` equals the number of nodes
reachable from the root; a call to `insert` changes it by exactly one iff
insert returns true, and a call to `remove` changes it by exactly one iff
remove returns true (the node-count lemmas behind this hold for the
two-children case as well, where the in-order successor's node is the one
that disappears from the right subtree). -/
theorem claim_C3_size_invariant :
    (∀ t : AVLTree, Reachable t → t.size = numNodes t.root) ∧
    (∀ (t : AVLTree) (key : KeyType) (v : ValueType), Reachable t →
      ((t.insert key v).1 = true → (t.insert key v).2.size = t.size + 1) ∧
      ((t.insert key v).1 = false → (t.insert key v).2.size = t.size) ∧
      ((t.remove key).1 = true → (t.remove key).2.size + 1 = t.size) ∧
      ((t.remove key).1 = false → (t.remove key).2.size = t.size)) := by
  constructor
  · exact fun t h => (reachable_inv t h).2.2.2
  · intro t key v h
    have h4 : t.treeSize = numNodes t.root := (reachable_inv t h).2.2.2
    have hrn := removeAux_numNodes t.root key
    refine ⟨?_, ?_, ?_, ?_⟩ <;> intro hf <;>
      simp only [AVLTree.insert, AVLTree.remove, AVLTree.size] at hf ⊢
    · simp [hf]
    · simp [hf]
    · rw [hf] at hrn
      simp at hrn
      simp [hf]
      omega
    · simp [hf]

theorem claim_C3_witness :
    (AVLTree.empty.insert (str "a") 5).2.size
      = numNodes (AVLTree.empty.insert (str "a") 5).2.root :=
  claim_C3_size_invariant.1 _ (Reachable.insert _ _ _ Reachable.empty)

/-- C4: in every reachable tree every node's stored height is
`1 + max(height(left), height(right))` with absent children counting 0
(`HtOk`); a rotation recomputes the demoted node's height first and uses it
for the new subtree root's height (shown literally for `rotateLeft`; the
mirror holds by the same unfolding); and `copyTree` reproduces the tree
with identical keys, values and stored heights. -/
theorem claim_C4_height_correctness :
    (∀ t : AVLTree, Reachable t → HtOk t.root) ∧
    (∀ (k : KeyType) (v : ValueType) (h : Nat) (l : Tree) (rk : KeyType)
        (rv : ValueType) (rh : Nat) (rl rr : Tree),
      rotateLeft (.node k v h l (.node rk rv rh rl rr)) =
        .node rk rv (1 + max (1 + max l.ht rl.ht) rr.ht)
          (.node k v (1 + max l.ht rl.ht) l rl) rr ∧
      rotateRight (.node k v h (.node rk rv rh rl rr) l) =
        .node rk rv (1 + max rl.ht (1 + max rr.ht l.ht))
          rl (.node k v (1 + max rr.ht l.ht) rr l)) ∧
    (∀ tr : Tree, copyTree tr = tr) := by
  refine ⟨fun t h => (reachable_inv t h).1, ?_, copyTree_id⟩
  intro k v h l rk rv rh rl rr
  constructor
  · simp [rotateLeft]
  · simp [rotateRight]

theorem claim_C4_witness :
    HtOk ((AVLTree.empty.insert (str "b") 1).2.insert (str "a") 2).2.root :=
  claim_C4_height_correctness.1 _
    (Reachable.insert _ _ _ (Reachable.insert _ _ _ Reachable.empty))

/-- C5: inserting a key that is already present returns false and leaves the
whole tree object (hence every stored value) exactly unchanged; in
particular inserting the same key twice returns true then false, the second
insert changes nothing, and the value stored under the key stays the one
from the first insert. -/
theorem claim_C5_duplicate_insert (t : AVLTree) (key : KeyType)
    (v1 v2 : ValueType) (ho : Ordered t.root) :
    (t.contains key = true → t.insert key v2 = (false, t)) ∧
    (t.contains key = false → (t.insert key v1).1 = true) ∧
    ((t.insert key v1).1 = true →
      (t.insert key v1).2.insert key v2 = (false, (t.insert key v1).2) ∧
      ((t.insert key v1).2.insert key v2).2.get key = (t.insert key v1).2.get key) := by
  refine ⟨?_, ?_, ?_⟩
  · intro hc
    simp only [AVLTree.contains] at hc
    simp only [AVLTree.insert, insertAux_of_contains t.root key v2 hc]
    rfl
  · intro hc
    simp only [AVLTree.contains] at hc
    simp only [AVLTree.insert]
    exact insertAux_of_not_contains t.root key v1 hc
  · intro hf
    have hins : insertAux t.root key v1 = (true, (insertAux t.root key v1).2) := by
      simp only [AVLTree.insert] at hf
      exact Prod.ext hf rfl
    obtain ⟨ho', _, hkey⟩ := insertAux_ordered t.root key v1 ho
    have hmem : key ∈ inorder (insertAux t.root key v1).2 := by
      apply hkey
      simp only [AVLTree.insert] at hf
      exact hf
    have hc : containsAux (insertAux t.root key v1).2 key = true :=
      (containsAux_iff_mem _ key ho').mpr hmem
    have hstep : insertAux (insertAux t.root key v1).2 key v2
        = (false, (insertAux t.root key v1).2) :=
      insertAux_of_contains _ key v2 hc
    constructor
    · simp only [AVLTree.insert, hstep]
      rfl
    · simp only [AVLTree.insert, AVLTree.get, hstep]

theorem claim_C5_witness :
    (AVLTree.empty.insert (str "a") 1).2.insert (str "a") 2
        = (false, (AVLTree.empty.insert (str "a") 1).2) ∧
    ((AVLTree.empty.insert (str "a") 1).2.insert (str "a") 2).2.get (str "a")
        = (AVLTree.empty.insert (str "a") 1).2.get (str "a") :=
  (claim_C5_duplicate_insert AVLTree.empty (str "a") 1 2 trivial).2.2 rfl

/-- C6: `balanceNode` on a node with balance factor `b > 1` performs a
single right rotation exactly when the (non-null) left child's balance
factor is ≥ 0, and otherwise first left-rotates the left child and then
right-rotates the node; mirrored for `b < -1`; and it does nothing when
`-1 ≤ b ≤ 1`. -/
theorem claim_C6_rotation_policy (k : KeyType) (v : ValueType) (h : Nat)
    (l r : Tree) :
    ((Tree.node k v h l r).bal > 1 → l.isNil = false →
      ((0 ≤ l.bal → balanceNode (.node k v h l r) = rotateRight (.node k v h l r)) ∧
       (l.bal < 0 → balanceNode (.node k v h l r)
          = rotateRight (.node k v h (rotateLeft l) r)))) ∧
    ((Tree.node k v h l r).bal < -1 → r.isNil = false →
      ((r.bal ≤ 0 → balanceNode (.node k v h l r) = rotateLeft (.node k v h l r)) ∧
       (0 < r.bal → balanceNode (.node k v h l r)
          = rotateLeft (.node k v h l (rotateRight r))))) ∧
    (-1 ≤ (Tree.node k v h l r).bal ∧ (Tree.node k v h l r).bal ≤ 1 →
      balanceNode (.node k v h l r) = .node k v h l r) := by
  refine ⟨?_, ?_, ?_⟩
  · intro hb hnil
    simp only [bal_node] at hb
    constructor
    · intro hl
      simp only [balanceNode, bal_node]
      rw [if_pos (by omega : ((l.ht : Int) - r.ht > 1)),
        if_neg (fun hx => absurd hx.2 (not_lt.mpr hl))]
    · intro hl
      simp only [balanceNode, bal_node]
      rw [if_pos (by omega : ((l.ht : Int) - r.ht > 1)), if_pos ⟨hnil, hl⟩]
  · intro hb hnil
    simp only [bal_node] at hb
    constructor
    · intro hr
      simp only [balanceNode, bal_node]
      rw [if_neg (by omega : ¬ ((l.ht : Int) - r.ht > 1)),
        if_pos (by omega : ((l.ht : Int) - r.ht < -1)),
        if_neg (fun hx => absurd hx.2 (not_lt.mpr hr))]
    · intro hr
      simp only [balanceNode, bal_node]
      rw [if_neg (by omega : ¬ ((l.ht : Int) - r.ht > 1)),
        if_pos (by omega : ((l.ht : Int) - r.ht < -1)), if_pos ⟨hnil, hr⟩]
  · intro ⟨hb1, hb2⟩
    simp only [bal_node] at hb1 hb2
    exact balanceNode_of_balanced hb1 hb2

theorem claim_C6_witness :
    (0 : Int) ≤ (Tree.node (str "b") 2 2 (.node (str "a") 1 1 .nil .nil) .nil).bal ∧
    balanceNode (.node (str "c") 3 3
        (.node (str "b") 2 2 (.node (str "a") 1 1 .nil .nil) .nil) .nil)
      = rotateRight (.node (str "c") 3 3
        (.node (str "b") 2 2 (.node (str "a") 1 1 .nil .nil) .nil) .nil) :=
  ⟨by decide,
    ((claim_C6_rotation_policy (str "c") 3 3
        (.node (str "b") 2 2 (.node (str "a") 1 1 .nil .nil) .nil) .nil).1
      (by decide) rfl).1 (by decide)⟩

/-- C7 as stated is false on the code: with `KeyType = std::string`, the
bound "100" compares lexicographically below "3", so `range(0,100)` does
not return all five values. -/
theorem claim_C7_counterexample :
    ¬ ((rangeTree 1 3 5 7 9).findRange (str "0") (str "100") = [1, 3, 5, 7, 9]) := by
  decide

/-- C7 (amended): for the tree with string keys "1","3","5","7","9" and
values v1,v3,v5,v7,v9, `range("3","7")` returns `[v3,v5,v7]` in order and
`range("4","4")` returns `[]`, but `range("0","100")` returns only `[v1]`,
because with string keys only "1" lies in the interval ["0","100"]. -/
theorem claim_C7_range_query (v1 v3 v5 v7 v9 : ValueType) :
    (rangeTree v1 v3 v5 v7 v9).findRange (str "3") (str "7") = [v3, v5, v7] ∧
    (rangeTree v1 v3 v5 v7 v9).findRange (str "4") (str "4") = [] ∧
    (rangeTree v1 v3 v5 v7 v9).findRange (str "0") (str "100") = [v1] :=
  ⟨rfl, rfl, rfl⟩

/-- C8 as stated is false on the code: with `KeyType = std::string` the
insertion order 10,5,15,3,7,12,20 produces a different shape — the node
holding "10" has exactly one child when it is removed, and the new root key
is "3", not "12". -/
theorem claim_C8_counterexample :
    ¬ ((removalTree.remove (str "10")).1 = true ∧
       (getNode removalTree.root (str "10")).numChildren = 2 ∧
       rootKeyOpt (removalTree.remove (str "10")).2.root = some (str "12") ∧
       Balanced (removalTree.remove (str "10")).2.root) := by
  decide

/-- C8 (amended): after inserting string keys 10,5,15,3,7,12,20 in that
order, `remove("10")` returns true, the node holding "10" had exactly one
child at removal time, the new root key is "3", and the balance and height
invariants still hold afterwards. -/
theorem claim_C8_removal_scenario :
    (removalTree.remove (str "10")).1 = true ∧
    (getNode removalTree.root (str "10")).numChildren = 1 ∧
    rootKeyOpt (removalTree.remove (str "10")).2.root = some (str "3") ∧
    Balanced (removalTree.remove (str "10")).2.root ∧
    HtOk (removalTree.remove (str "10")).2.root := by
  decide

/-- C9: removing an absent key returns false and leaves the tree object
completely unchanged — same root structure (keys, values, stored heights)
and same size — even though the implementation runs `updateHeight` and
`balanceNode` on every node of the failed search path. -/
theorem claim_C9_remove_absent (t : AVLTree) (key : KeyType)
    (h1 : HtOk t.root) (h2 : Balanced t.root) (hc : t.contains key = false) :
    t.remove key = (false, t) := by
  simp only [AVLTree.contains] at hc
  simp only [AVLTree.remove, removeAux_not_found t.root key h1 h2 hc]
  rfl

theorem claim_C9_witness :
    (rangeTree 1 3 5 7 9).remove (str "2") = (false, rangeTree 1 3 5 7 9) :=
  claim_C9_remove_absent (rangeTree 1 3 5 7 9) (str "2")
    (by decide) (by decide) (by decide)

/-- C10: assigning a tree to itself leaves it unchanged: with the
`this != &other` guard (`isSelf = true`) the assignment is a no-op, and even
along the deep-copy branch the copied tree is value-identical
(`copyTree` reproduces keys, values and heights), so `keys()`, `size()`,
the root height and the whole root are preserved. -/
theorem claim_C10_self_assignment (t : AVLTree) (isSelf : Bool) :
    (t.assign t isSelf).keys = t.keys ∧
    (t.assign t isSelf).size = t.size ∧
    (t.assign t isSelf).getHeight = t.getHeight ∧
    (t.assign t isSelf).root = t.root := by
  cases isSelf
  · simp [AVLTree.assign, AVLTree.keys, AVLTree.size, AVLTree.getHeight, copyTree_id]
  · simp [AVLTree.assign]

end AVLTreeCpp
